import Mathlib

/-!
Shallow embedding of `labkode/deatomize` (`src/main.go`), a single-pass
reconciliation tool for records of aborted chunked uploads.  The backing
store (the eosclient package) is an external collaborator; it is modelled
by explicit functions passed into each stage (`md` for metadata lookup,
`lv` for version listing, `exec` for the rollback command).  `log.Fatal`
aborts the whole process; it is modelled by `Except.error`.
-/

namespace Deatomize

/-- The fields of `eosclient.FileInfo` used by the tool: the resolved path
(`File`), the byte size (`Size`, a `uint64`) and the modification time in
seconds (`MTimeSec`, a `uint64`).  Sizes and times are modelled as `Nat`;
no arithmetic in the tool can overflow 64 bits on real data, and only
`%`, `>` and `≤` are applied to them. -/
structure FileInfo where
  File : String
  Size : Nat
  MTimeSec : Nat
deriving DecidableEq, Repr

/-- The `status` type of `main.go` (`type status uint32`) with its six
constants `notNasty = 0`, `repairable = 1`, `nastyNotChunk = 2`,
`nastyNoVersions = 3`, `nastyInvalidVersion = 4`,
`nastyNotExistsAnymore = 5`.  The Go zero value of the field is
`notNasty`. -/
inductive status where
  | notNasty
  | repairable
  | nastyNotChunk
  | nastyNoVersions
  | nastyInvalidVersion
  | nastyNotExistsAnymore
deriving DecidableEq, Repr

/-- The `record` struct of `main.go`.  `ValidVersion` is a pointer in Go
(`*eosclient.FileInfo`), modelled as an `Option`; `Date` is the
`time.Time` built by `time.Unix(i, 0)`, modelled by the parsed integer
of seconds.  The defaults are the Go zero values a freshly allocated
`&record{...}` carries. -/
structure record where
  FXID : String := ""
  Handled : Bool := false
  Size : Nat := 0
  Date : Int := 0
  File : String := ""
  Status : status := status.notNasty
  Versions : List FileInfo := []
  ValidVersion : Option FileInfo := none
deriving DecidableEq, Repr

/-- The `skipped` counter struct of `skipRecords`. -/
structure skipped where
  Recycle : Nat := 0
  Versions : Nat := 0
  Atomic : Nat := 0
deriving DecidableEq, Repr

/-- `isChunked` from `main.go`: `size % (10*1000000) == 0`. -/
def isChunked (size : Nat) : Bool :=
  size % (10 * 1000000) == 0

/-- `strings.Contains` on the underlying character lists: `sub` occurs
as a contiguous substring of `s`. -/
def hasSubstring (sub : List Char) : List Char → Bool
  | [] => sub.isPrefixOf []
  | c :: rest => sub.isPrefixOf (c :: rest) || hasSubstring sub rest

/-- `strings.Contains s sub` on `String`s. -/
def strContains (s sub : String) : Bool :=
  hasSubstring sub.toList s.toList

/-- `skipRecords` from `main.go`.  `md` models
`client.GetFileInfoByFXID`: `none` is the error case (record skipped;
the error is only printed).  On success the path namespace checks run in
source order (`/proc/recycle`, then `sys.v`, then `sys.a`); a surviving
record gets `r.File = filename` — and nothing else — before being
appended to the result. -/
def skipRecords (md : String → Option FileInfo) : List record → List record × skipped
  | [] => ([], {})
  | r :: rest =>
    let p := skipRecords md rest
    match md r.FXID with
    | none => p
    | some fi =>
      if strContains fi.File "/proc/recycle" then
        (p.1, { p.2 with Recycle := p.2.Recycle + 1 })
      else if strContains fi.File "sys.v" then
        (p.1, { p.2 with Versions := p.2.Versions + 1 })
      else if strContains fi.File "sys.a" then
        (p.1, { p.2 with Atomic := p.2.Atomic + 1 })
      else
        ({ r with File := fi.File } :: p.1, p.2)

/-- `getRecordDistribution` from `main.go`: partition by
`isChunked(r.Size)`, setting `Status = nastyNotChunk` on the non-chunked
records; every processed record gets `Handled = true`. -/
def getRecordDistribution : List record → List record × List record
  | [] => ([], [])
  | r :: rest =>
    let p := getRecordDistribution rest
    if isChunked r.Size then
      ({ r with Handled := true } :: p.1, p.2)
    else
      (p.1, { r with Status := status.nastyNotChunk, Handled := true } :: p.2)

/-- Insert a version into a list already sorted descending by
`MTimeSec`, keeping the inserted (later-arriving) element after strictly
newer ones and before ties. -/
def insertDesc (v : FileInfo) : List FileInfo → List FileInfo
  | [] => [v]
  | w :: rest =>
    if w.MTimeSec > v.MTimeSec then w :: insertDesc v rest
    else v :: w :: rest

/-- `sortVersions` from `main.go`:
`sort.Slice(versions, func(i, j int) bool { return versions[i].MTimeSec > versions[j].MTimeSec })`.
The contract of that call is a permutation of the input ordered
descending by `MTimeSec`; `sort.Slice` leaves the relative order of
equal-`MTimeSec` entries unspecified (it is documented as not
guaranteed to be stable).  This model realises the contract with a
stable insertion sort, one admissible refinement. -/
def sortVersions : List FileInfo → List FileInfo
  | [] => []
  | v :: rest => insertDesc v (sortVersions rest)

/-- The scan inside `haveValidVersion`: walk the (sorted) versions,
skip the chunk-aligned ones, return the first non-chunk-aligned one. -/
def findValid : List FileInfo → Option FileInfo
  | [] => none
  | v :: rest => if isChunked v.Size then findValid rest else some v

/-- `haveValidVersion` from `main.go`: sorts `r.Versions` in place, scans
newest to oldest, and on the first version whose size is not
chunk-aligned sets `r.Status = notNasty` and `r.ValidVersion = v` and
returns `true`; returns `false` (record otherwise untouched apart from
the in-place sort) when every version is chunk-aligned. -/
def haveValidVersion (r : record) : record × Bool :=
  let sorted := sortVersions r.Versions
  let r1 : record := { r with Versions := sorted }
  match findValid sorted with
  | some v => ({ r1 with Status := status.notNasty, ValidVersion := some v }, true)
  | none => (r1, false)

/-- Errors from `client.ListVersions`.  The tool never inspects the
error kind (`analyze` and `analyzeNasty` call `log.Fatal(err)` on any
error), but the kind is kept so that the "not found" case can be talked
about. -/
inductive ListErr where
  | notFound
  | other (msg : String)
deriving DecidableEq, Repr

/-- The body of the `analyze` loop for one chunked record, given the
version listing the backend returned for `r.File`: assign
`r.Versions = versions`; empty listing means `nastyNoVersions`,
otherwise `haveValidVersion` decides between the repairable pile
(`true`) and `nastyInvalidVersion`.  The `Bool` tells whether the record
goes to `newchunked`. -/
def analyzeRecord (versions : List FileInfo) (r : record) : record × Bool :=
  let r1 : record := { r with Versions := versions }
  if versions.length == 0 then
    ({ r1 with Status := status.nastyNoVersions }, false)
  else
    let h := haveValidVersion r1
    if h.2 then (h.1, true)
    else ({ h.1 with Status := status.nastyInvalidVersion }, false)

/-- `analyze` from `main.go`: iterate over the chunked records, list the
versions of each (`log.Fatal` on any listing error, modelled by
`Except.error`), classify with the loop body, appending failures to the
`nasty` list and successes to `newchunked`, both in iteration order. -/
def analyze (lv : String → Except ListErr (List FileInfo)) :
    List record → List record → Except ListErr (List record × List record)
  | [], nasty => .ok ([], nasty)
  | r :: rest, nasty =>
    match lv r.File with
    | .error e => .error e
    | .ok versions =>
      let a := analyzeRecord versions r
      match analyze lv rest (if a.2 then nasty else nasty ++ [a.1]) with
      | .error e => .error e
      | .ok (nc, na) => .ok (if a.2 then a.1 :: nc else nc, na)

/-- `analyzeNasty` from `main.go`: for every nasty record set
`Handled = true`, list its versions (`log.Fatal` on any error) and
assign `r.Versions = versions`. -/
def analyzeNasty (lv : String → Except ListErr (List FileInfo)) :
    List record → Except ListErr (List record)
  | [] => .ok []
  | r :: rest =>
    match lv r.File with
    | .error e => .error e
    | .ok versions =>
      match analyzeNasty lv rest with
      | .error e => .error e
      | .ok t => .ok ({ r with Handled := true, Versions := versions } :: t)

/-- Go's `path.Base`: empty string gives `"."`, a string of slashes
gives `"/"`, otherwise the component after the last `/`, ignoring
trailing slashes. -/
def pathBase (p : String) : String :=
  if p = "" then "." else
    let chars := (p.toList.reverse).dropWhile (· = '/')
    if chars = [] then "/" else
      String.mk ((chars.takeWhile (· ≠ '/')).reverse)

/-- One invocation of `client.RollbackToVersion(ctx, user, group, file, version)`
as issued by `rollback`. -/
structure rollbackCall where
  file : String
  version : String
deriving DecidableEq, Repr

/-- The arguments `rollback` passes for a record:
`(r.File, path.Base(r.ValidVersion.File))`.  Go dereferences
`r.ValidVersion` unconditionally; every record reaching `rollback` in a
run carries one, and the model substitutes an empty `FileInfo` where Go
would fault on `nil`. -/
def rollbackCallOf (r : record) : rollbackCall :=
  { file := r.File
    version := pathBase (match r.ValidVersion with
      | some v => v.File
      | none => "") }

/-- `rollback` from `main.go`, with the backend call's outcome made
explicit: `exec` models `client.RollbackToVersion` returning success or
failure.  When `repair` is false only the dry-run line is printed and no
backend call happens; when `repair` is true the call is issued once per
record and a failure is only printed, never retried, and processing
continues.  The result is the trace of issued calls with their
outcomes. -/
def rollbackExec (repair : Bool) (exec : String → String → Bool)
    (chunked : List record) : List (rollbackCall × Bool) :=
  if repair then
    chunked.map fun r =>
      let c := rollbackCallOf r
      (c, exec c.file c.version)
  else []

/-- The ASCII whitespace recognised by the trimming in the loader. -/
def isSpaceChar (c : Char) : Bool :=
  c == ' ' || c == '\t' || c == '\n' || c == '\r'

/-- `strings.TrimSpace` on the character list: drop leading and
trailing whitespace. -/
def trimChars (l : List Char) : List Char :=
  ((l.dropWhile isSpaceChar).reverse.dropWhile isSpaceChar).reverse

/-- The numeric value of a decimal digit character, if it is one. -/
def digitVal (c : Char) : Option Nat :=
  if '0' ≤ c ∧ c ≤ '9' then some (c.toNat - '0'.toNat) else none

/-- Accumulate decimal digits; any non-digit makes the parse fail. -/
def parseNatAux : List Char → Nat → Option Nat
  | [], acc => some acc
  | c :: rest, acc =>
    match digitVal c with
    | none => none
    | some d => parseNatAux rest (acc * 10 + d)

/-- `strconv.ParseInt(s, 10, 64)` on the character list: an optional
sign followed by at least one decimal digit.  (Go's 64-bit range check
is immaterial for the timestamps this tool reads and is not
modelled.) -/
def parseIntList : List Char → Option Int
  | [] => none
  | '-' :: rest =>
    if rest.isEmpty then none
    else (parseNatAux rest 0).map (fun n => -(n : Int))
  | '+' :: rest =>
    if rest.isEmpty then none
    else (parseNatAux rest 0).map (fun n => (n : Int))
  | l => (parseNatAux l 0).map (fun n => (n : Int))

/-- The loop body of `getRecords` for one CSV row (already split into
fields by the space-separated `csv.Reader`): `log.Fatal` on a field
count other than two or a non-numeric timestamp, otherwise
`&record{FXID: strings.TrimSpace(each[1])}` with `Date` set from the
parsed Unix seconds.  Every other field keeps its Go zero value. -/
def parseRow (row : List String) : Except String record :=
  match row with
  | [ts, fxid] =>
    match parseIntList ts.toList with
    | some i => .ok { FXID := String.mk (trimChars fxid.toList), Date := i }
    | none => .error "error: record is invalid"
  | _ => .error "error: record is invalid"

/-- `getRecords` from `main.go` on the parsed rows of the input file;
`Except.error` models the `log.Fatal` abort on a malformed row. -/
def getRecords (rows : List (List String)) : Except String (List record) :=
  match rows with
  | [] => .ok []
  | row :: rest =>
    match parseRow row with
    | .error e => .error e
    | .ok r =>
      match getRecords rest with
      | .error e => .error e
      | .ok t => .ok (r :: t)

/-- The end-of-run state of `main`: the final repairable pile, the final
nasty pile (after `analyzeNasty`), the skip counters and the rollback
call trace. -/
structure pipelineResult where
  chunked : List record
  nasty : List record
  sk : skipped
  calls : List (rollbackCall × Bool)
deriving DecidableEq, Repr

/-- The record pipeline of `main` after loading: `skipRecords`, then
`getRecordDistribution`, then `analyze`, then `analyzeNasty`, then
`rollback` on the surviving chunked records.  The printing between the
stages has no effect on the records and is dropped. -/
def runPipeline (md : String → Option FileInfo)
    (lv : String → Except ListErr (List FileInfo))
    (repair : Bool) (exec : String → String → Bool)
    (records : List record) : Except ListErr pipelineResult :=
  let (newRecords, sk) := skipRecords md records
  let (chunked0, nasty0) := getRecordDistribution newRecords
  match analyze lv chunked0 nasty0 with
  | .error e => .error e
  | .ok (chunked1, nasty1) =>
    match analyzeNasty lv nasty1 with
    | .error e => .error e
    | .ok nasty2 =>
      .ok { chunked := chunked1, nasty := nasty2, sk := sk
            calls := rollbackExec repair exec chunked1 }

/-- Ghost trace of the assignments `r.Versions = versions` executed in a
run that reaches the end: `analyze` performs one per chunked record it
iterates (unconditionally, before the classification), and
`analyzeNasty` performs one per record of its input — which is the
nasty list `analyze` produced.  Each entry is the FXID of the assigned
record.  These two loops are the only statements in `main.go` that
assign the `Versions` field. -/
def versionsAssignTrace (chunked na : List record) : List String :=
  chunked.map record.FXID ++ na.map record.FXID

/-- The assignment trace of a whole run (`none` when the run dies in
`log.Fatal` before finishing). -/
def runAssignTrace (md : String → Option FileInfo)
    (lv : String → Except ListErr (List FileInfo))
    (records : List record) : Option (List String) :=
  let (newRecords, _) := skipRecords md records
  let (chunked0, nasty0) := getRecordDistribution newRecords
  match analyze lv chunked0 nasty0 with
  | .error _ => none
  | .ok (_, na) =>
    match analyzeNasty lv na with
    | .error _ => none
    | .ok _ => some (versionsAssignTrace chunked0 na)

/-! Helper lemmas about the sorting and scanning in the version resolver. -/

theorem insertDesc_perm (v : FileInfo) (l : List FileInfo) :
    (insertDesc v l).Perm (v :: l) := by
  induction l with
  | nil => exact List.Perm.refl _
  | cons w rest ih =>
    by_cases hc : w.MTimeSec > v.MTimeSec
    · simp only [insertDesc, if_pos hc]
      exact (ih.cons w).trans (List.Perm.swap v w rest)
    · simp only [insertDesc, if_neg hc]
      exact List.Perm.refl _

theorem sortVersions_perm (l : List FileInfo) : (sortVersions l).Perm l := by
  induction l with
  | nil => exact List.Perm.refl _
  | cons v rest ih =>
    exact (insertDesc_perm v (sortVersions rest)).trans (ih.cons v)

theorem mem_sortVersions {x : FileInfo} {l : List FileInfo} :
    x ∈ sortVersions l ↔ x ∈ l :=
  (sortVersions_perm l).mem_iff

theorem insertDesc_sorted (v : FileInfo) (l : List FileInfo)
    (h : l.Pairwise (fun a b => b.MTimeSec ≤ a.MTimeSec)) :
    (insertDesc v l).Pairwise (fun a b => b.MTimeSec ≤ a.MTimeSec) := by
  induction l with
  | nil => simp [insertDesc]
  | cons w rest ih =>
    rcases List.pairwise_cons.1 h with ⟨hw, hrest⟩
    by_cases hc : w.MTimeSec > v.MTimeSec
    · simp only [insertDesc, if_pos hc]
      refine List.pairwise_cons.2 ⟨?_, ih hrest⟩
      intro x hx
      rcases List.mem_cons.1 ((insertDesc_perm v rest).mem_iff.1 hx) with hx | hx
      · exact hx ▸ Nat.le_of_lt hc
      · exact hw x hx
    · simp only [insertDesc, if_neg hc]
      refine List.pairwise_cons.2 ⟨?_, h⟩
      intro x hx
      rcases List.mem_cons.1 hx with hx | hx
      · exact hx ▸ Nat.le_of_not_lt hc
      · exact Nat.le_trans (hw x hx) (Nat.le_of_not_lt hc)

theorem sortVersions_sorted (l : List FileInfo) :
    (sortVersions l).Pairwise (fun a b => b.MTimeSec ≤ a.MTimeSec) := by
  induction l with
  | nil => simp [sortVersions]
  | cons v rest ih => exact insertDesc_sorted v (sortVersions rest) ih

theorem sortVersions_eq_of_perm {l1 l2 : List FileInfo} (hp : l1.Perm l2)
    (hnd : (l1.map FileInfo.MTimeSec).Nodup) :
    sortVersions l1 = sortVersions l2 := by
  have hne0 : l1.Pairwise (fun a b => a.MTimeSec ≠ b.MTimeSec) :=
    List.pairwise_map.1 hnd
  have hne1 : (sortVersions l1).Pairwise (fun a b => a.MTimeSec ≠ b.MTimeSec) :=
    ((sortVersions_perm l1).pairwise_iff (fun {a b} h => Ne.symm h)).2 hne0
  have hne2 : (sortVersions l2).Pairwise (fun a b => a.MTimeSec ≠ b.MTimeSec) :=
    ((sortVersions_perm l2).pairwise_iff (fun {a b} h => Ne.symm h)).2
      ((hp.pairwise_iff (fun {a b} h => Ne.symm h)).1 hne0)
  have hgt1 : (sortVersions l1).Pairwise (fun a b => b.MTimeSec < a.MTimeSec) :=
    ((sortVersions_sorted l1).and hne1).imp
      (fun h => Nat.lt_of_le_of_ne h.1 (fun e => h.2 e.symm))
  have hgt2 : (sortVersions l2).Pairwise (fun a b => b.MTimeSec < a.MTimeSec) :=
    ((sortVersions_sorted l2).and hne2).imp
      (fun h => Nat.lt_of_le_of_ne h.1 (fun e => h.2 e.symm))
  have hpp : (sortVersions l1).Perm (sortVersions l2) :=
    (sortVersions_perm l1).trans (hp.trans (sortVersions_perm l2).symm)
  haveI : IsAntisymm FileInfo (fun a b => b.MTimeSec < a.MTimeSec) :=
    ⟨fun a b h1 h2 => absurd (Nat.lt_trans h1 h2) (Nat.lt_irrefl _)⟩
  exact List.eq_of_perm_of_sorted hpp hgt1 hgt2

theorem findValid_eq_none_iff (l : List FileInfo) :
    findValid l = none ↔ ∀ v ∈ l, isChunked v.Size = true := by
  induction l with
  | nil => simp [findValid]
  | cons v rest ih =>
    by_cases hc : isChunked v.Size
    · simp [findValid, hc, ih]
    · simp [findValid, hc]

theorem haveValidVersion_snd (r : record) :
    (haveValidVersion r).2 = (findValid (sortVersions r.Versions)).isSome := by
  cases hf : findValid (sortVersions r.Versions) <;> simp [haveValidVersion, hf]

theorem haveValidVersion_fst_of_some {v : FileInfo} (r : record)
    (h : findValid (sortVersions r.Versions) = some v) :
    (haveValidVersion r).1 = { r with Versions := sortVersions r.Versions
                                      Status := status.notNasty
                                      ValidVersion := some v } := by
  simp [haveValidVersion, h]

theorem haveValidVersion_fst_of_none (r : record)
    (h : findValid (sortVersions r.Versions) = none) :
    (haveValidVersion r).1 = { r with Versions := sortVersions r.Versions } := by
  simp [haveValidVersion, h]

/-! Helper lemmas about the per-record classification and the analyze loop. -/

theorem analyzeRecord_fields (versions : List FileInfo) (r : record) :
    (analyzeRecord versions r).1.FXID = r.FXID ∧
    (analyzeRecord versions r).1.Size = r.Size ∧
    (analyzeRecord versions r).1.File = r.File := by
  by_cases h0 : (versions.length == 0) = true
  · simp [analyzeRecord, h0]
  · cases hf : findValid (sortVersions versions) with
    | none =>
      have h1 := haveValidVersion_fst_of_none { r with Versions := versions } hf
      have h2 := haveValidVersion_snd { r with Versions := versions }
      simp [analyzeRecord, h0, h1, h2, hf]
    | some v =>
      have h1 := haveValidVersion_fst_of_some { r with Versions := versions } hf
      have h2 := haveValidVersion_snd { r with Versions := versions }
      simp [analyzeRecord, h0, h1, h2, hf]

theorem analyzeRecord_of_true (versions : List FileInfo) (r : record)
    (h : (analyzeRecord versions r).2 = true) :
    (analyzeRecord versions r).1.Status = status.notNasty ∧
    (analyzeRecord versions r).1.ValidVersion.isSome = true := by
  by_cases h0 : (versions.length == 0) = true
  · simp [analyzeRecord, h0] at h
  · cases hf : findValid (sortVersions versions) with
    | none =>
      have h2 := haveValidVersion_snd { r with Versions := versions }
      simp [analyzeRecord, h0, h2, hf] at h
    | some v =>
      have h1 := haveValidVersion_fst_of_some { r with Versions := versions } hf
      have h2 := haveValidVersion_snd { r with Versions := versions }
      simp [analyzeRecord, h0, h1, h2, hf]

theorem analyzeRecord_of_false (versions : List FileInfo) (r : record)
    (h : (analyzeRecord versions r).2 = false) :
    (analyzeRecord versions r).1.Status = status.nastyNoVersions ∨
    (analyzeRecord versions r).1.Status = status.nastyInvalidVersion := by
  by_cases h0 : (versions.length == 0) = true
  · simp [analyzeRecord, h0]
  · cases hf : findValid (sortVersions versions) with
    | none =>
      have h1 := haveValidVersion_fst_of_none { r with Versions := versions } hf
      have h2 := haveValidVersion_snd { r with Versions := versions }
      simp [analyzeRecord, h0, h1, h2, hf]
    | some v =>
      have h2 := haveValidVersion_snd { r with Versions := versions }
      simp [analyzeRecord, h0, h2, hf] at h

theorem analyze_ok_structure (lv : String → Except ListErr (List FileInfo)) :
    ∀ (chunked nasty nc na : List record),
      analyze lv chunked nasty = .ok (nc, na) →
      ∃ failed : List record,
        na = nasty ++ failed ∧
        List.Sublist (failed.map record.FXID) (chunked.map record.FXID) ∧
        (∀ r ∈ failed,
          (r.Status = status.nastyNoVersions ∨ r.Status = status.nastyInvalidVersion) ∧
          ∃ r0 ∈ chunked, r.Size = r0.Size) ∧
        (∀ r ∈ nc, r.Status = status.notNasty ∧ r.ValidVersion.isSome = true ∧
          ∃ r0 ∈ chunked, r.Size = r0.Size) := by
  intro chunked
  induction chunked with
  | nil =>
    intro nasty nc na h
    simp only [analyze, Except.ok.injEq, Prod.mk.injEq] at h
    exact ⟨[], by simp [← h.1, ← h.2]⟩
  | cons r rest ih =>
    intro nasty nc na h
    cases hlv : lv r.File with
    | error e => simp [analyze, hlv] at h
    | ok versions =>
      cases hv : (analyzeRecord versions r).2 with
      | true =>
        cases hrec : analyze lv rest nasty with
        | error e => simp [analyze, hlv, hv, hrec] at h
        | ok p =>
          obtain ⟨nc', na'⟩ := p
          simp only [analyze, hlv, hv, if_true] at h
          rw [hrec] at h
          simp only [Except.ok.injEq, Prod.mk.injEq] at h
          obtain ⟨hnc, hna⟩ := h
          obtain ⟨failed, hf1, hf2, hf3, hf4⟩ := ih nasty nc' na' hrec
          refine ⟨failed, by rw [← hna, hf1], ?_, ?_, ?_⟩
          · exact hf2.trans (List.sublist_cons_self _ _)
          · intro x hx
            obtain ⟨hs, r0, hr0, hsz⟩ := hf3 x hx
            exact ⟨hs, r0, List.mem_cons_of_mem _ hr0, hsz⟩
          · intro x hx
            rw [← hnc] at hx
            rcases List.mem_cons.1 hx with hx | hx
            · subst hx
              obtain ⟨hs, hvv⟩ := analyzeRecord_of_true versions r hv
              exact ⟨hs, hvv, r, List.mem_cons_self _ _,
                (analyzeRecord_fields versions r).2.1⟩
            · obtain ⟨hs, hvv, r0, hr0, hsz⟩ := hf4 x hx
              exact ⟨hs, hvv, r0, List.mem_cons_of_mem _ hr0, hsz⟩
      | false =>
        cases hrec : analyze lv rest (nasty ++ [(analyzeRecord versions r).1]) with
        | error e => simp [analyze, hlv, hv, hrec] at h
        | ok p =>
          obtain ⟨nc', na'⟩ := p
          simp only [analyze, hlv, hv, Bool.false_eq_true, if_false] at h
          rw [hrec] at h
          simp only [Except.ok.injEq, Prod.mk.injEq] at h
          obtain ⟨hnc, hna⟩ := h
          obtain ⟨failed, hf1, hf2, hf3, hf4⟩ :=
            ih (nasty ++ [(analyzeRecord versions r).1]) nc' na' hrec
          refine ⟨(analyzeRecord versions r).1 :: failed, ?_, ?_, ?_, ?_⟩
          · rw [← hna, hf1]; simp
          · simpa [(analyzeRecord_fields versions r).1] using hf2.cons₂ r.FXID
          · intro x hx
            rcases List.mem_cons.1 hx with hx | hx
            · subst hx
              exact ⟨analyzeRecord_of_false versions r hv,
                r, List.mem_cons_self _ _, (analyzeRecord_fields versions r).2.1⟩
            · obtain ⟨hs, r0, hr0, hsz⟩ := hf3 x hx
              exact ⟨hs, r0, List.mem_cons_of_mem _ hr0, hsz⟩
          · intro x hx
            rw [← hnc] at hx
            obtain ⟨hs, hvv, r0, hr0, hsz⟩ := hf4 x hx
            exact ⟨hs, hvv, r0, List.mem_cons_of_mem _ hr0, hsz⟩

theorem analyzeNasty_ok (lv : String → Except ListErr (List FileInfo)) :
    ∀ (l l2 : List record), analyzeNasty lv l = .ok l2 →
      ∀ r2 ∈ l2, ∃ r ∈ l, r2.Status = r.Status ∧ r2.Size = r.Size ∧
        r2.FXID = r.FXID ∧ r2.ValidVersion = r.ValidVersion := by
  intro l
  induction l with
  | nil =>
    intro l2 h r2 hr2
    simp only [analyzeNasty, Except.ok.injEq] at h
    subst h
    simp at hr2
  | cons r rest ih =>
    intro l2 h r2 hr2
    cases hlv : lv r.File with
    | error e => simp [analyzeNasty, hlv] at h
    | ok versions =>
      cases hrec : analyzeNasty lv rest with
      | error e => simp [analyzeNasty, hlv, hrec] at h
      | ok t =>
        simp only [analyzeNasty, hlv, hrec, Except.ok.injEq] at h
        subst h
        rcases List.mem_cons.1 hr2 with hx | hx
        · subst hx; exact ⟨r, List.mem_cons_self _ _, rfl, rfl, rfl, rfl⟩
        · obtain ⟨r0, hr0, h1, h2, h3, h4⟩ := ih t hrec r2 hx
          exact ⟨r0, List.mem_cons_of_mem _ hr0, h1, h2, h3, h4⟩

/-! Helper lemmas for the loader, the relevance filter and the size
classifier. -/

theorem parseRow_ok {row : List String} {r : record} (h : parseRow row = .ok r) :
    r.Size = 0 ∧ r.Status = status.notNasty ∧ r.Versions = [] ∧
    r.ValidVersion = none := by
  cases row with
  | nil => simp [parseRow] at h
  | cons a t =>
    cases t with
    | nil => simp [parseRow] at h
    | cons b t2 =>
      cases t2 with
      | cons c t3 => simp [parseRow] at h
      | nil =>
        cases hts : parseIntList a.toList with
        | none =>
          simp only [parseRow, hts] at h
          exact Except.noConfusion h
        | some i =>
          simp only [parseRow, hts, Except.ok.injEq] at h
          subst h
          exact ⟨rfl, rfl, rfl, rfl⟩

theorem getRecords_ok : ∀ (rows : List (List String)) (recs : List record),
    getRecords rows = .ok recs →
    ∀ r ∈ recs, r.Size = 0 ∧ r.Status = status.notNasty := by
  intro rows
  induction rows with
  | nil =>
    intro recs h r hr
    simp only [getRecords, Except.ok.injEq] at h
    subst h
    simp at hr
  | cons row rest ih =>
    intro recs h r hr
    cases hp : parseRow row with
    | error e => simp [getRecords, hp] at h
    | ok r0 =>
      cases hrec : getRecords rest with
      | error e => simp [getRecords, hp, hrec] at h
      | ok t =>
        simp only [getRecords, hp, hrec, Except.ok.injEq] at h
        subst h
        rcases List.mem_cons.1 hr with hx | hx
        · subst hx; exact ⟨(parseRow_ok hp).1, (parseRow_ok hp).2.1⟩
        · exact ih t hrec r hx

theorem skipRecords_mem (md : String → Option FileInfo) :
    ∀ (records : List record) (r2 : record), r2 ∈ (skipRecords md records).1 →
      ∃ r ∈ records, r2.Size = r.Size ∧ r2.Status = r.Status := by
  intro records
  induction records with
  | nil => intro r2 h; simp [skipRecords] at h
  | cons r rest ih =>
    intro r2 h
    have step : ∀ hx : r2 ∈ (skipRecords md rest).1,
        ∃ r0 ∈ r :: rest, r2.Size = r0.Size ∧ r2.Status = r0.Status := by
      intro hx
      obtain ⟨r0, hr0, e⟩ := ih r2 hx
      exact ⟨r0, List.mem_cons_of_mem _ hr0, e⟩
    cases hmd : md r.FXID with
    | none =>
      simp only [skipRecords, hmd] at h
      exact step h
    | some fi =>
      by_cases h1 : strContains fi.File "/proc/recycle" = true
      · simp only [skipRecords, hmd, if_pos h1] at h
        exact step h
      · by_cases h2 : strContains fi.File "sys.v" = true
        · simp only [skipRecords, hmd, if_neg h1, if_pos h2] at h
          exact step h
        · by_cases h3 : strContains fi.File "sys.a" = true
          · simp only [skipRecords, hmd, if_neg h1, if_neg h2, if_pos h3] at h
            exact step h
          · simp only [skipRecords, hmd, if_neg h1, if_neg h2, if_neg h3,
              List.mem_cons] at h
            rcases h with hx | hx
            · subst hx; exact ⟨r, List.mem_cons_self _ _, rfl, rfl⟩
            · exact step hx

theorem getRecordDistribution_all_chunked :
    ∀ records : List record, (∀ r ∈ records, isChunked r.Size = true) →
      getRecordDistribution records =
        (records.map (fun r => { r with Handled := true }), []) := by
  intro records
  induction records with
  | nil => intro _; rfl
  | cons r rest ih =>
    intro h
    have hr := h r (List.mem_cons_self _ _)
    have ht : ∀ x ∈ rest, isChunked x.Size = true :=
      fun x hx => h x (List.mem_cons_of_mem _ hx)
    simp [getRecordDistribution, hr, ih ht]

/-! Claim theorems. -/

/-- C1: the claim says the relevance filter sets both the record's
current path and its size from the fetched metadata.  Counter to this,
`skipRecords` only assigns `r.File`; at a record whose metadata fetch
succeeds with path `/eos/user/x/f` and size `12345678`, the record that
passes through still has `Size = 0` (its Go zero value), not
`12345678`. -/
theorem c1_filter_never_sets_size :
    skipRecords
        (fun x => if x = "a" then
          some { File := "/eos/user/x/f", Size := 12345678, MTimeSec := 5 } else none)
        [{ FXID := "a", Date := 7 }] =
      ([{ FXID := "a", Date := 7, File := "/eos/user/x/f" }], {}) ∧
    ({ FXID := "a", Date := 7, File := "/eos/user/x/f" } : record).Size = 0 ∧
    (0 : Nat) ≠ 12345678 :=
  ⟨rfl, rfl, by decide⟩

/-- C2: for every size `s`, `isChunked s` holds exactly when
`s mod 10,000,000 = 0`, and in particular `isChunked 0` is true. -/
theorem c2_isChunked_iff_mod :
    (∀ s : Nat, isChunked s = true ↔ s % 10000000 = 0) ∧ isChunked 0 = true := by
  refine ⟨fun s => ?_, by decide⟩
  simp [isChunked]

/-- C3: on the spec's own scenario (versions of sizes 30,000,000 at
mtime 100 and 15,000,000 at mtime 90, presented oldest first) the
resolver does sort descending by mtime, skip the chunk-aligned newest
version and select the one at mtime 90 — but it marks the record with
`notNasty` (the zero value, printed as unset), not with the
`repairable` status the code reserves for exactly this situation. -/
theorem c3_resolver_selects_but_status_not_repairable :
    (analyzeRecord [{ File := "/v/90", Size := 15000000, MTimeSec := 90 },
        { File := "/v/100", Size := 30000000, MTimeSec := 100 }]
      { FXID := "018edb0f", File := "/eos/f" }).1.Versions =
      [{ File := "/v/100", Size := 30000000, MTimeSec := 100 },
       { File := "/v/90", Size := 15000000, MTimeSec := 90 }] ∧
    (analyzeRecord [{ File := "/v/90", Size := 15000000, MTimeSec := 90 },
        { File := "/v/100", Size := 30000000, MTimeSec := 100 }]
      { FXID := "018edb0f", File := "/eos/f" }).1.ValidVersion =
      some { File := "/v/90", Size := 15000000, MTimeSec := 90 } ∧
    (analyzeRecord [{ File := "/v/90", Size := 15000000, MTimeSec := 90 },
        { File := "/v/100", Size := 30000000, MTimeSec := 100 }]
      { FXID := "018edb0f", File := "/eos/f" }).1.Status = status.notNasty ∧
    status.notNasty ≠ status.repairable :=
  ⟨rfl, rfl, rfl, by decide⟩

/-- C4: for any chunked record handed to the resolver loop body, the
resulting status is `nastyNoVersions` exactly when the fetched version
list is empty, and `nastyInvalidVersion` exactly when it is non-empty
and every version's size is chunk-aligned. -/
theorem c4_classification_characterisation (versions : List FileInfo) (r : record) :
    ((analyzeRecord versions r).1.Status = status.nastyNoVersions ↔ versions = []) ∧
    ((analyzeRecord versions r).1.Status = status.nastyInvalidVersion ↔
      versions ≠ [] ∧ ∀ v ∈ versions, isChunked v.Size = true) := by
  cases versions with
  | nil => exact ⟨by simp [analyzeRecord], by simp [analyzeRecord]⟩
  | cons v vs =>
    have hne : findValid (sortVersions (v :: vs)) = none ↔
        ∀ x ∈ v :: vs, isChunked x.Size = true := by
      rw [findValid_eq_none_iff]
      exact ⟨fun hall x hx => hall x (mem_sortVersions.2 hx),
        fun hall x hx => hall x (mem_sortVersions.1 hx)⟩
    cases hf : findValid (sortVersions (v :: vs)) with
    | some w =>
      have h1 := haveValidVersion_fst_of_some { r with Versions := v :: vs } hf
      have h2 := haveValidVersion_snd { r with Versions := v :: vs }
      have hnall : ¬ ∀ x ∈ v :: vs, isChunked x.Size = true := by
        intro hall
        rw [← hne] at hall
        simp [hall] at hf
      refine ⟨by simp [analyzeRecord, h1, h2, hf], ?_⟩
      constructor
      · intro hst
        exact absurd hst (by simp [analyzeRecord, h1, h2, hf])
      · intro ⟨_, hall⟩
        exact absurd hall hnall
    | none =>
      have h1 := haveValidVersion_fst_of_none { r with Versions := v :: vs } hf
      have h2 := haveValidVersion_snd { r with Versions := v :: vs }
      have hall := hne.1 hf
      refine ⟨by simp [analyzeRecord, h1, h2, hf], ?_⟩
      constructor
      · intro _
        exact ⟨List.cons_ne_nil v vs, hall⟩
      · intro _
        simp [analyzeRecord, h1, h2, hf]

/-- C5: at the end of a run in which one record is repaired, the final
repairable record carries a selected version (`ValidVersion` is set) but
its status is `notNasty` — the zero value the code itself prints as the
unset state — and not `repairable`; `ValidVersion`'s being set does not
coincide with outcome `repairable` as the claim states. -/
theorem c5_repaired_record_not_marked_repairable :
    (runPipeline
        (fun x => if x = "a" then
          some { File := "/eos/f", Size := 30000000, MTimeSec := 0 } else none)
        (fun _ => .ok [{ File := "/v/15", Size := 15000000, MTimeSec := 90 }])
        false (fun _ _ => true)
        [{ FXID := "a", Date := 7 }]).map
      (fun res => res.chunked.map (fun r => (r.ValidVersion.isSome, r.Status))) =
      .ok [(true, status.notNasty)] ∧
    status.notNasty ≠ status.repairable :=
  ⟨rfl, by decide⟩

/-- C6: when the version listing of a record fails with "not found",
`analyze` calls `log.Fatal` and the whole run aborts; the record is
never classified `nastyNotExistsAnymore` and no result is produced,
contrary to the claim that this case is recoverable. -/
theorem c6_not_found_aborts_run :
    analyze (fun _ => .error ListErr.notFound)
        [{ FXID := "a", File := "/eos/f", Handled := true }] [] =
      .error ListErr.notFound ∧
    ∀ p : List record × List record,
      analyze (fun _ => .error ListErr.notFound)
          [{ FXID := "a", File := "/eos/f", Handled := true }] [] ≠ .ok p :=
  ⟨rfl, fun _ h => nomatch h⟩

/-- C7: with the repair flag off, `rollback` issues no backend call;
with it on, it issues exactly one call per repairable record, in order,
and the call trace is independent of whether each call succeeds or
fails. -/
theorem c7_rollback_call_discipline (chunked : List record)
    (ex1 ex2 : String → String → Bool) :
    rollbackExec false ex1 chunked = [] ∧
    (rollbackExec true ex1 chunked).map Prod.fst = chunked.map rollbackCallOf ∧
    (rollbackExec true ex1 chunked).map Prod.fst =
      (rollbackExec true ex2 chunked).map Prod.fst ∧
    (rollbackExec true ex1 chunked).length = chunked.length := by
  refine ⟨rfl, ?_, ?_, ?_⟩ <;>
    simp [rollbackExec, List.map_map, Function.comp]

/-- C8 counterexample: in a run whose single record is classified
`nastyInvalidVersion`, that record's `Versions` field is assigned twice —
once in `analyze` and once more in `analyzeNasty` — so it is not
populated at most once. -/
theorem c8_versions_assigned_twice :
    runAssignTrace
        (fun x => if x = "a" then
          some { File := "/eos/f", Size := 0, MTimeSec := 0 } else none)
        (fun _ => .ok [{ File := "/v/20", Size := 20000000, MTimeSec := 100 }])
        [{ FXID := "a", Date := 7 }] = some ["a", "a"] ∧
    ¬ (["a", "a"] : List String).count "a" ≤ 1 :=
  ⟨rfl, by decide⟩

/-- C8 amended: per record (identified by its FXID, assumed unique
across the records entering classification), `Versions` is assigned at
most twice in a completed run — at most once by `analyze` and at most
once by `analyzeNasty`; only chunked records that `analyze` reclassifies
as nasty receive both assignments. -/
theorem c8_versions_assigned_at_most_twice
    (lv : String → Except ListErr (List FileInfo))
    (chunked nasty nc na : List record) (x : String)
    (hok : analyze lv chunked nasty = .ok (nc, na))
    (hnd : ((chunked ++ nasty).map record.FXID).Nodup) :
    (versionsAssignTrace chunked na).count x ≤ 2 := by
  obtain ⟨failed, hf1, hf2, _, _⟩ := analyze_ok_structure lv chunked nasty nc na hok
  subst hf1
  have hcount1 : ((chunked ++ nasty).map record.FXID).count x ≤ 1 :=
    List.nodup_iff_count_le_one.1 hnd x
  have hfc : (failed.map record.FXID).count x ≤ (chunked.map record.FXID).count x :=
    hf2.count_le x
  simp only [versionsAssignTrace, List.map_append, List.count_append] at *
  omega

/-- C8 amended, witness: a concrete completed run with a single chunked
record that turns nasty; the bound of two assignments holds there. -/
theorem c8_versions_assigned_at_most_twice_witness :
    analyze (fun _ => Except.ok [{ File := "/v/20", Size := 20000000, MTimeSec := 100 }])
        [{ FXID := "a", File := "/eos/f", Handled := true }] [] =
      Except.ok ([], [{ FXID := "a", File := "/eos/f", Handled := true
                        Versions := [{ File := "/v/20", Size := 20000000, MTimeSec := 100 }]
                        Status := status.nastyInvalidVersion }]) ∧
    ((([{ FXID := "a", File := "/eos/f", Handled := true }] : List record) ++
        []).map record.FXID).Nodup ∧
    (versionsAssignTrace [{ FXID := "a", File := "/eos/f", Handled := true }]
        [{ FXID := "a", File := "/eos/f", Handled := true
           Versions := [{ File := "/v/20", Size := 20000000, MTimeSec := 100 }]
           Status := status.nastyInvalidVersion }]).count "a" ≤ 2 :=
  ⟨rfl, by decide,
    c8_versions_assigned_at_most_twice
      (fun _ => Except.ok [{ File := "/v/20", Size := 20000000, MTimeSec := 100 }])
      [{ FXID := "a", File := "/eos/f", Handled := true }] [] []
      [{ FXID := "a", File := "/eos/f", Handled := true
         Versions := [{ File := "/v/20", Size := 20000000, MTimeSec := 100 }]
         Status := status.nastyInvalidVersion }]
      "a" rfl (by decide)⟩

/-- C9 counterexample: the same unordered version set — two versions
with equal mtime, neither chunk-aligned — presented to the resolver in
its two possible orders produces two different selected versions, so
selection from a fixed unordered set is not deterministic. -/
theorem c9_selection_depends_on_order :
    ([{ File := "/v/a", Size := 5, MTimeSec := 100 },
      { File := "/v/b", Size := 7, MTimeSec := 100 }] : List FileInfo).Perm
      [{ File := "/v/b", Size := 7, MTimeSec := 100 },
       { File := "/v/a", Size := 5, MTimeSec := 100 }] ∧
    (haveValidVersion { Versions := [{ File := "/v/a", Size := 5, MTimeSec := 100 },
        { File := "/v/b", Size := 7, MTimeSec := 100 }] }).1.ValidVersion =
      some { File := "/v/a", Size := 5, MTimeSec := 100 } ∧
    (haveValidVersion { Versions := [{ File := "/v/b", Size := 7, MTimeSec := 100 },
        { File := "/v/a", Size := 5, MTimeSec := 100 }] }).1.ValidVersion =
      some { File := "/v/b", Size := 7, MTimeSec := 100 } ∧
    some ({ File := "/v/a", Size := 5, MTimeSec := 100 } : FileInfo) ≠
      some { File := "/v/b", Size := 7, MTimeSec := 100 } :=
  ⟨by decide, rfl, rfl, by decide⟩

/-- C9 amended: resolver selection is deterministic whenever the
versions' mtimes are pairwise distinct: any two presentations of the
same version set then yield the same selected version. -/
theorem c9_deterministic_of_distinct_mtimes (r : record) (l1 l2 : List FileInfo)
    (hp : l1.Perm l2) (hnd : (l1.map FileInfo.MTimeSec).Nodup) :
    (haveValidVersion { r with Versions := l1 }).1.ValidVersion =
      (haveValidVersion { r with Versions := l2 }).1.ValidVersion := by
  have hs : sortVersions l1 = sortVersions l2 := sortVersions_eq_of_perm hp hnd
  cases hf : findValid (sortVersions l2) with
  | some w =>
    rw [haveValidVersion_fst_of_some { r with Versions := l1 } (by simpa [hs] using hf),
      haveValidVersion_fst_of_some { r with Versions := l2 } hf]
  | none =>
    rw [haveValidVersion_fst_of_none { r with Versions := l1 } (by simpa [hs] using hf),
      haveValidVersion_fst_of_none { r with Versions := l2 } hf]

/-- C9 amended, witness: two presentations of a concrete two-version set
with distinct mtimes select the same version. -/
theorem c9_deterministic_of_distinct_mtimes_witness :
    (haveValidVersion { Versions := [{ File := "/v/a", Size := 5, MTimeSec := 100 },
        { File := "/v/b", Size := 7, MTimeSec := 90 }] }).1.ValidVersion =
      (haveValidVersion { Versions := [{ File := "/v/b", Size := 7, MTimeSec := 90 },
        { File := "/v/a", Size := 5, MTimeSec := 100 }] }).1.ValidVersion :=
  c9_deterministic_of_distinct_mtimes {} _ _ (by decide) (by decide)

/-- C10: records are created with `Size = 0` and no later stage assigns
the field, so every record that passes the relevance filter has size 0,
is classified chunked (`isChunked 0` is true), the non-chunked pile of
the classifier is empty, and no record anywhere in the run carries
status `nastyNotChunk`. -/
theorem c10_size_stays_zero (rows : List (List String)) (recs : List record)
    (md : String → Option FileInfo) (lv : String → Except ListErr (List FileInfo))
    (nc na : List record)
    (hload : getRecords rows = .ok recs)
    (hana : analyze lv (getRecordDistribution (skipRecords md recs).1).1
        (getRecordDistribution (skipRecords md recs).1).2 = .ok (nc, na)) :
    (∀ r ∈ recs, r.Size = 0) ∧
    (∀ r ∈ (skipRecords md recs).1, r.Size = 0) ∧
    (getRecordDistribution (skipRecords md recs).1).2 = [] ∧
    (∀ r ∈ (getRecordDistribution (skipRecords md recs).1).1,
      r.Size = 0 ∧ isChunked r.Size = true ∧ r.Status ≠ status.nastyNotChunk) ∧
    (∀ r ∈ nc, r.Size = 0 ∧ r.Status ≠ status.nastyNotChunk) ∧
    (∀ r ∈ na, r.Size = 0 ∧ r.Status ≠ status.nastyNotChunk) := by
  have hrecs : ∀ r ∈ recs, r.Size = 0 :=
    fun r hr => (getRecords_ok rows recs hload r hr).1
  have hfil : ∀ r ∈ (skipRecords md recs).1, r.Size = 0 := by
    intro r hr
    obtain ⟨r0, hr0, hsz, _⟩ := skipRecords_mem md recs r hr
    rw [hsz]; exact hrecs r0 hr0
  have hfilst : ∀ r ∈ (skipRecords md recs).1, r.Status = status.notNasty := by
    intro r hr
    obtain ⟨r0, hr0, _, hst⟩ := skipRecords_mem md recs r hr
    rw [hst]; exact (getRecords_ok rows recs hload r0 hr0).2
  have hchq : ∀ r ∈ (skipRecords md recs).1, isChunked r.Size = true := by
    intro r hr; rw [hfil r hr]; decide
  have hdist := getRecordDistribution_all_chunked (skipRecords md recs).1 hchq
  have hnasty0 : (getRecordDistribution (skipRecords md recs).1).2 = [] := by
    rw [hdist]
  have hch0 : ∀ r ∈ (getRecordDistribution (skipRecords md recs).1).1, r.Size = 0 := by
    rw [hdist]
    intro r hr
    simp only [List.mem_map] at hr
    obtain ⟨r0, hr0, he⟩ := hr
    rw [← he]
    exact hfil r0 hr0
  have hch0st : ∀ r ∈ (getRecordDistribution (skipRecords md recs).1).1,
      r.Status = status.notNasty := by
    rw [hdist]
    intro r hr
    simp only [List.mem_map] at hr
    obtain ⟨r0, hr0, he⟩ := hr
    rw [← he]
    exact hfilst r0 hr0
  obtain ⟨failed, hf1, _, hf3, hf4⟩ := analyze_ok_structure lv _ _ nc na hana
  rw [hnasty0] at hf1
  simp only [List.nil_append] at hf1
  subst hf1
  refine ⟨hrecs, hfil, hnasty0, ?_, ?_, ?_⟩
  · intro r hr
    refine ⟨hch0 r hr, ?_, ?_⟩
    · rw [hch0 r hr]; decide
    · rw [hch0st r hr]; decide
  · intro r hr
    obtain ⟨hst, _, r0, hr0, hsz⟩ := hf4 r hr
    refine ⟨?_, by rw [hst]; decide⟩
    rw [hsz]; exact hch0 r0 hr0
  · intro r hr
    obtain ⟨hst, r0, hr0, hsz⟩ := hf3 r hr
    refine ⟨?_, ?_⟩
    · rw [hsz]; exact hch0 r0 hr0
    · rcases hst with hst | hst <;> rw [hst] <;> decide

/-- C10, witness: in a concrete one-record run the size classifier's
non-chunked pile is empty, as the invariant predicts. -/
theorem c10_size_stays_zero_witness :
    (getRecordDistribution (skipRecords
        (fun x => if x = "a" then
          some { File := "/eos/f", Size := 30000000, MTimeSec := 0 } else none)
        [{ FXID := "a", Date := 10 }]).1).2 = [] :=
  (c10_size_stays_zero [["10", "a"]] [{ FXID := "a", Date := 10 }]
    (fun x => if x = "a" then
      some { File := "/eos/f", Size := 30000000, MTimeSec := 0 } else none)
    (fun _ => .ok [{ File := "/v/15", Size := 15000000, MTimeSec := 90 }])
    [{ FXID := "a", Date := 10, File := "/eos/f", Handled := true
       Versions := [{ File := "/v/15", Size := 15000000, MTimeSec := 90 }]
       Status := status.notNasty
       ValidVersion := some { File := "/v/15", Size := 15000000, MTimeSec := 90 } }]
    [] rfl rfl).2.2.1

end Deatomize
